import Mathlib

/-
Verification of the two tree-transformation utilities of src/lib/shared/utils.js:
`makeFlatStartCaseObject` (rename every mapping key to start case unless it is an
environment-variable-style name, then flatten nested mappings into space-joined
path-strings) and `hideAbsolutePathsInObject` (replace absolute-path string leaves
by their basename, leaving device paths and relative strings untouched).

The JSON-like values both functions operate on are modelled by the inductive
type `Node`; JavaScript objects are modelled as ordered association lists with
JavaScript assignment semantics (`jsInsert`: overwrite in place, else append).
-/

set_option maxHeartbeats 1000000

namespace Etcher

/-- JSON-like value: primitive scalars (including the distinguished absent value
`undef`), ordered sequences, and ordered string-keyed mappings. -/
inductive Node where
  | undef : Node
  | null : Node
  | bool (b : Bool) : Node
  | num (n : Int) : Node
  | str (s : String) : Node
  | arr (xs : List Node) : Node
  | obj (fields : List (String × Node)) : Node

/-- Structural nodes are those for which lodash `_.isObject` is true: arrays and
plain objects. -/
def isStructural : Node → Bool
  | .arr _ => true
  | .obj _ => true
  | _ => false

/-- Non-structural scalar values: string, number, boolean, null (not `undef`,
which `makeFlatStartCaseObject` treats separately). -/
def isScalar : Node → Bool
  | .null => true
  | .bool _ => true
  | .num _ => true
  | .str _ => true
  | _ => false

/-- String leaves, the only values `hideAbsolutePathsInObject` may rewrite. -/
def isStringNode : Node → Bool
  | .str _ => true
  | _ => false

/-- Lookup of a key in a JavaScript object, modelled as the first matching entry
of the association list. -/
def jsGet (fs : List (String × Node)) (k : String) : Option Node :=
  match fs.find? (fun q => q.1 == k) with
  | some q => some q.2
  | none => none

/-- Number of entries of an association list carrying a given key. -/
def keyCount (fs : List (String × Node)) (k : String) : Nat :=
  (fs.filter (fun q => q.1 == k)).length

/-- JavaScript object assignment `o[k] = v`: overwrite the existing entry in
place when the key is present, otherwise append a new entry. -/
def jsInsert (fs : List (String × Node)) (k : String) (v : Node) : List (String × Node) :=
  if fs.any (fun q => q.1 == k) then
    fs.map (fun q => if q.1 == k then (k, v) else q)
  else
    fs ++ [(k, v)]

/-- Build a JavaScript object by a sequence of assignments, in order. -/
def jsObjOf (l : List (String × Node)) : List (String × Node) :=
  l.foldl (fun acc q => jsInsert acc q.1 q.2) []

/-- All strings of the list pairwise distinct. -/
def distinctKeys : List String → Bool
  | [] => true
  | k :: ks => !(ks.contains k) && distinctKeys ks

/-! Start-case renaming.

Modelled from the spec: the title-case/word-boundary transformer (lodash
`_.startCase`, an external library that is not part of src/) converts a string
to start case — each word capitalized and words joined by single spaces, word
boundaries inferred from case changes, delimiters (any character that is not an
ASCII letter or digit), and digit/letter transitions. An all-uppercase run
followed by a lowercase letter splits before the last uppercase letter
("FOOBar" gives words "FOO" and "Bar"). -/

/-- ASCII uppercase letter test. -/
def isAsciiUpper (c : Char) : Bool := 'A' ≤ c && c ≤ 'Z'

/-- ASCII lowercase letter test. -/
def isAsciiLower (c : Char) : Bool := 'a' ≤ c && c ≤ 'z'

/-- ASCII digit test. -/
def isAsciiDigit (c : Char) : Bool := '0' ≤ c && c ≤ '9'

/-- Word characters; every other character is a delimiter for word splitting. -/
def isWordChar (c : Char) : Bool := isAsciiUpper c || isAsciiLower c || isAsciiDigit c

/-- State of the word splitter: finished words (most recent first, characters
reversed) and the current word (characters reversed). -/
structure WordsSt where
  acc : List (List Char)
  cur : List Char

/-- Close the current word, if any. -/
def flushCur (st : WordsSt) : WordsSt :=
  match st.cur with
  | [] => st
  | w => { acc := w :: st.acc, cur := [] }

/-- Process one character of the input, splitting words at delimiters, at
lower-to-upper and letter/digit transitions, and before the last letter of an
uppercase run that is followed by a lowercase letter. -/
def wordsStep (st : WordsSt) (c : Char) : WordsSt :=
  if !isWordChar c then flushCur st
  else
    match st.cur with
    | [] => { st with cur := [c] }
    | p :: rest =>
      if isAsciiLower c then
        if isAsciiLower p then { st with cur := c :: p :: rest }
        else if isAsciiUpper p then
          match rest with
          | [] => { st with cur := [c, p] }
          | _ :: _ => { acc := rest :: st.acc, cur := [c, p] }
        else { acc := (p :: rest) :: st.acc, cur := [c] }
      else if isAsciiUpper c then
        if isAsciiUpper p then { st with cur := c :: p :: rest }
        else { acc := (p :: rest) :: st.acc, cur := [c] }
      else
        if isAsciiDigit p then { st with cur := c :: p :: rest }
        else { acc := (p :: rest) :: st.acc, cur := [c] }

/-- Split a string into its start-case words, in order. -/
def splitWords (s : String) : List String :=
  let st := flushCur (s.toList.foldl wordsStep { acc := [], cur := [] })
  (st.acc.reverse).map (fun w => String.mk w.reverse)

/-- Capitalize the first character of a word (the rest is kept as is, as lodash
`upperFirst` does). -/
def upperFirst (s : String) : String :=
  match s.toList with
  | [] => ""
  | c :: cs => String.mk (c.toUpper :: cs)

/-- Start-case rendering: capitalized words joined by single spaces. -/
def startCase (s : String) : String :=
  " ".intercalate ((splitWords s).map upperFirst)

/-- Environment-variable-style keys, the regular expression /^[A-Z_]+$/ of
src/lib/shared/utils.js line 72: one or more characters, each an uppercase
ASCII letter or an underscore. -/
def isEnvKey (k : String) : Bool :=
  !k.isEmpty && k.toList.all (fun c => isAsciiUpper c || c == '_')

/-- Key renaming of makeFlatStartCaseObject (src/lib/shared/utils.js lines
69-78): environment-variable-style keys are preserved, all other keys are
converted to start case. -/
def renameKey (k : String) : String :=
  if isEnvKey k then k else startCase k

/-! Deep key mapping.

Modelled from the spec: the generic deep-mapping utility (the `deep-map-keys`
npm package, external to src/) renames the keys of every mapping at every
nesting level, descending through both mappings and sequences, and rebuilds
each mapping by JavaScript assignments in the original entry order. -/

mutual

/-- Rename every mapping key at every depth of a node. -/
def deepMapKeysNode (f : String → String) : Node → Node
  | .arr xs => .arr (deepMapKeysList f xs)
  | .obj fs => .obj (jsObjOf (deepMapKeysFields f fs))
  | v => v

/-- Rename every mapping key at every depth of each sequence element. -/
def deepMapKeysList (f : String → String) : List Node → List Node
  | [] => []
  | x :: xs => deepMapKeysNode f x :: deepMapKeysList f xs

/-- Rename the keys of a field list and recurse into the values. -/
def deepMapKeysFields (f : String → String) : List (String × Node) → List (String × Node)
  | [] => []
  | (k, v) :: fs => (f k, deepMapKeysNode f v) :: deepMapKeysFields f fs

end

mutual

/-- Renaming is collision-free on a node: at every mapping of the tree the
renamed keys are pairwise distinct. -/
def renameOKNode (f : String → String) : Node → Bool
  | .arr xs => renameOKList f xs
  | .obj fs => distinctKeys (fs.map (fun q => f q.1)) && renameOKFields f fs
  | _ => true

/-- Collision-freedom for each element of a sequence. -/
def renameOKList (f : String → String) : List Node → Bool
  | [] => true
  | x :: xs => renameOKNode f x && renameOKList f xs

/-- Collision-freedom for each value of a field list. -/
def renameOKFields (f : String → String) : List (String × Node) → Bool
  | [] => true
  | (_, v) :: fs => renameOKNode f v && renameOKFields f fs

end

/-- Extend a flattening key prefix with the next key segment, space-joined. -/
def joinKey (pfx : Option String) (k : String) : String :=
  match pfx with
  | none => k
  | some p => p ++ " " ++ k

mutual

/-- Flattening loop of the `flat` npm package with options delimiter ' ' and
safe true (src/lib/shared/utils.js lines 80-84): iterate the entries in order,
treating each value with the prefix extended by the entry's key. -/
def flattenStep : List (String × Node) → Option String → List (String × Node) → List (String × Node)
  | [], _, out => out
  | (k, v) :: fs, pfx, out => flattenStep fs pfx (flattenVal v (joinKey pfx k) out)

/-- Treatment of one value by the flattening loop: a nonempty mapping is
recursed into with the extended prefix; every other value (scalar, absent,
sequence, empty mapping) is written to the output object at the space-joined
key. -/
def flattenVal : Node → String → List (String × Node) → List (String × Node)
  | .obj (g :: gs), nk, out => flattenStep (g :: gs) (some nk) out
  | v, nk, out => jsInsert out nk v

end

/-- Field list of the renamed copy of a mapping, the object that is handed to
the flattening pass. -/
def renamedFieldsOf (fs : List (String × Node)) : List (String × Node) :=
  jsObjOf (deepMapKeysFields renameKey fs)

mutual

/-- Shallow embedding of makeFlatStartCaseObject (src/lib/shared/utils.js
lines 47-85): absent input is returned unchanged; a non-structural scalar is
wrapped as the mapping with single key "Value"; a sequence is mapped
elementwise, recursing exactly on structural elements; a mapping has all keys
renamed at every depth and is then flattened. -/
def makeFlatStartCaseObject : Node → Node
  | .undef => .undef
  | .arr xs => .arr (makeFlatList xs)
  | .obj fs => .obj (flattenStep (renamedFieldsOf fs) none [])
  | v => .obj [("Value", v)]

/-- Elementwise treatment of a sequence by makeFlatStartCaseObject. -/
def makeFlatList : List Node → List Node
  | [] => []
  | x :: xs => (if isStructural x then makeFlatStartCaseObject x else x) :: makeFlatList xs

end

mutual

/-- Specification of the entries the flattening loop appends: the pairs of
space-joined path-string and leaf value produced by the entries of a field
list, in traversal order. -/
def emits : List (String × Node) → Option String → List (String × Node)
  | [], _ => []
  | (k, v) :: fs, pfx => emitsVal v (joinKey pfx k) ++ emits fs pfx

/-- Entries one value contributes to the flattened output at a given
space-joined key. -/
def emitsVal : Node → String → List (String × Node)
  | .obj (g :: gs), nk => emits (g :: gs) (some nk)
  | v, nk => [(nk, v)]

end

/-- Space-joined rendering of a key path. -/
def renderPath : List String → String
  | [] => ""
  | [k] => k
  | k :: ks => k ++ " " ++ renderPath ks

/-- One accessor step into a node: a mapping key or a sequence index. -/
inductive Step where
  | key (k : String)
  | idx (i : Nat)

/-- Follow a list of accessor steps from a node. -/
def getAt : Node → List Step → Option Node
  | v, [] => some v
  | .obj fs, .key k :: p =>
    (match jsGet fs k with
      | some v => getAt v p
      | none => none)
  | .arr xs, .idx i :: p =>
    (match xs.get? i with
      | some v => getAt v p
      | none => none)
  | _, _ => none

/-! Path Anonymizer. -/

/-- Supported host platforms of the path-semantics utility (the Node.js `path`
module). -/
inductive Platform where
  | posix
  | win32

/-- Path separators of the Windows-style platform. -/
def isWinSep (c : Char) : Bool := c == '/' || c == '\\'

/-- Drive letters of the Windows-style platform. -/
def isWinDeviceRoot (c : Char) : Bool := isAsciiUpper c || isAsciiLower c

/-- Absoluteness test of the host platform, modelled from the spec: on the
POSIX-style platform a path is absolute iff it begins with the root separator
'/'; on the Windows-style platform iff it begins with a separator or with a
drive letter followed by ':' and a separator. -/
def isAbsolute : Platform → String → Bool
  | .posix, s =>
    (match s.toList with
      | c :: _ => c == '/'
      | [] => false)
  | .win32, s =>
    (match s.toList with
      | c :: c1 :: c2 :: _ => isWinSep c || (isWinDeviceRoot c && c1 == ':' && isWinSep c2)
      | c :: _ => isWinSep c
      | [] => false)

/-- Last separator-free run of a character list, ignoring trailing
separators. -/
def lastSegment (sep : Char → Bool) (cs : List Char) : List Char :=
  (((cs.reverse).dropWhile sep).takeWhile (fun c => !sep c)).reverse

/-- Drop a leading drive-letter-and-colon pair, as the Windows-style basename
does before scanning. -/
def stripDrive (cs : List Char) : List Char :=
  match cs with
  | c0 :: ':' :: rest => if isWinDeviceRoot c0 then rest else cs
  | _ => cs

/-- Basename of the host platform, modelled from the spec: the final path
segment with all directory components (and any trailing separators, and on the
Windows-style platform a leading drive-letter prefix) stripped. -/
def basename : Platform → String → String
  | .posix, s => String.mk (lastSegment (fun c => c == '/') s.toList)
  | .win32, s => String.mk (lastSegment isWinSep (stripDrive s.toList))

/-- First list starts with the second. -/
def listStartsWith : List Char → List Char → Bool
  | _, [] => true
  | [], _ :: _ => false
  | c :: cs, d :: ds => c == d && listStartsWith cs ds

/-- String prefix test (lodash `_.startsWith`). -/
def strStartsWith (s pre : String) : Bool :=
  listStartsWith s.toList pre.toList

/-- Value rewrite of hideAbsolutePathsInObject (src/lib/shared/utils.js lines
118-133) on a string: device paths (prefix "/dev/" or "\\.\") are kept, any
other absolute path is replaced by its basename, everything else is kept. -/
def hideStringValue (p : Platform) (s : String) : String :=
  if strStartsWith s "/dev/" || strStartsWith s "\\\\.\\" then s
  else if isAbsolute p s then basename p s
  else s

/-- Callback handed to the deep value mapper: rewrite string values, keep every
other value. -/
def hideLeafValue (p : Platform) : Node → Node
  | .str s => .str (hideStringValue p s)
  | v => v

mutual

/-- Deep value mapping, modelled from the spec: the generic deep-mapping
utility (`lodash-deep`'s deepMapValues, external to src/) rebuilds the
structure, recursing into both mappings and sequences uniformly and applying
the callback to every non-structural value. -/
def deepMapValuesNode (f : Node → Node) : Node → Node
  | .arr xs => .arr (deepMapValuesList f xs)
  | .obj fs => .obj (deepMapValuesFields f fs)
  | v => f v

/-- Deep value mapping of each element of a sequence. -/
def deepMapValuesList (f : Node → Node) : List Node → List Node
  | [] => []
  | x :: xs => deepMapValuesNode f x :: deepMapValuesList f xs

/-- Deep value mapping of each value of a field list; keys are untouched. -/
def deepMapValuesFields (f : Node → Node) : List (String × Node) → List (String × Node)
  | [] => []
  | (k, v) :: fs => (k, deepMapValuesNode f v) :: deepMapValuesFields f fs

end

/-- Shallow embedding of hideAbsolutePathsInObject (src/lib/shared/utils.js
lines 117-134): deep-map every value, rewriting qualifying absolute-path
strings to their basename. -/
def hideAbsolutePathsInObject (p : Platform) (x : Node) : Node :=
  deepMapValuesNode (hideLeafValue p) x

/-- Shape tag of a node. -/
inductive Kind where
  | undef
  | null
  | bool
  | num
  | str
  | arr
  | obj
deriving DecidableEq

/-- Shape tag of a node: which constructor it is built from. -/
def nodeKind : Node → Kind
  | .undef => .undef
  | .null => .null
  | .bool _ => .bool
  | .num _ => .num
  | .str _ => .str
  | .arr _ => .arr
  | .obj _ => .obj

/-! Association-list lemmas. -/

theorem distinctKeys_iff (l : List String) : distinctKeys l = true ↔ l.Nodup := by
  induction l with
  | nil => simp [distinctKeys]
  | cons k ks ih =>
    simp [distinctKeys, ih, List.contains, List.elem_iff]

theorem jsGet_cons (k0 : String) (v0 : Node) (fs : List (String × Node)) (k : String) :
    jsGet ((k0, v0) :: fs) k = if k0 == k then some v0 else jsGet fs k := by
  by_cases h : k0 == k <;> simp [jsGet, List.find?, h]

theorem keyCount_cons (k0 : String) (v0 : Node) (fs : List (String × Node)) (k : String) :
    keyCount ((k0, v0) :: fs) k = (if k0 == k then 1 else 0) + keyCount fs k := by
  by_cases h : k0 == k
  · simp [keyCount, h]
    omega
  · simp [keyCount, h]

theorem jsGet_mem (fs : List (String × Node)) (k : String) (v : Node)
    (h : jsGet fs k = some v) : (k, v) ∈ fs := by
  induction fs with
  | nil => simp [jsGet, List.find?] at h
  | cons q fs ih =>
    obtain ⟨k0, v0⟩ := q
    rw [jsGet_cons] at h
    by_cases hk : k0 == k
    · simp [hk] at h
      simp_all [eq_of_beq hk]
    · simp [hk] at h
      exact List.mem_cons_of_mem _ (ih h)

theorem jsGet_some_key_mem (fs : List (String × Node)) (k : String) (v : Node)
    (h : jsGet fs k = some v) : k ∈ fs.map Prod.fst := by
  have := jsGet_mem fs k v h
  exact List.mem_map.mpr ⟨(k, v), this, rfl⟩

theorem jsInsert_fresh (fs : List (String × Node)) (k : String) (v : Node)
    (h : k ∉ fs.map Prod.fst) : jsInsert fs k v = fs ++ [(k, v)] := by
  have hany : fs.any (fun q => q.1 == k) = false := by
    rw [List.any_eq_false]
    intro q hq
    intro hbeq
    exact h (List.mem_map.mpr ⟨q, hq, (eq_of_beq hbeq)⟩)
  simp [jsInsert, hany]

theorem jsGet_of_nodup_mem (fs : List (String × Node)) (k : String) (v : Node)
    (hnd : (fs.map Prod.fst).Nodup) (hmem : (k, v) ∈ fs) :
    jsGet fs k = some v ∧ keyCount fs k = 1 := by
  induction fs with
  | nil => simp at hmem
  | cons q fs ih =>
    obtain ⟨k0, v0⟩ := q
    simp only [List.map_cons, List.nodup_cons] at hnd
    rcases List.mem_cons.mp hmem with hq | hq
    · cases hq
      have hcount : keyCount fs k = 0 := by
        simp only [keyCount, List.length_eq_zero, List.filter_eq_nil_iff]
        intro q hq hbeq
        exact hnd.1 (List.mem_map.mpr ⟨q, hq, (eq_of_beq hbeq)⟩)
      constructor
      · simp [jsGet_cons]
      · simp [keyCount_cons, hcount]
    · have hk0 : (k0 == k) = false := by
        rcases Bool.eq_false_or_eq_true (k0 == k) with h | h
        · exact absurd (eq_of_beq h ▸ List.mem_map.mpr ⟨(k, v), hq, rfl⟩) hnd.1
        · exact h
      have := ih hnd.2 hq
      constructor
      · rw [jsGet_cons, hk0]
        · simpa using this.1
      · rw [keyCount_cons, hk0]
        simpa using this.2

/-! Claims C4, C6, C7: concrete behavior of the Key-Transformation-Flattener. -/

theorem makeFlatList_eq (xs : List Node) :
    makeFlatList xs = xs.map (fun e => if isStructural e then makeFlatStartCaseObject e else e) := by
  induction xs with
  | nil => rfl
  | cons x xs ih => simp [makeFlatList, ih]

/-- C4: for all scalar values s and r, the Key-Transformation-Flattener maps
the two-level mapping { image: { size: s, recommendedSize: r } } to exactly
{ "Image Size": s, "Image Recommended Size": r }. -/
theorem flatten_image_size (s r : Node) (hs : isScalar s = true) (hr : isScalar r = true) :
    makeFlatStartCaseObject (.obj [("image", .obj [("size", s), ("recommendedSize", r)])]) =
      .obj [("Image Size", s), ("Image Recommended Size", r)] := by
  cases s <;> cases r <;>
    first
      | exact Bool.noConfusion hs
      | exact Bool.noConfusion hr
      | rfl

/-- Witness for C4 at the spec's concrete input s = r = 10000000000. -/
theorem flatten_image_size_witness :
    makeFlatStartCaseObject (.obj [("image", .obj [("size", .num 10000000000), ("recommendedSize", .num 10000000000)])]) =
      .obj [("Image Size", .num 10000000000), ("Image Recommended Size", .num 10000000000)] :=
  flatten_image_size (.num 10000000000) (.num 10000000000) rfl rfl

/-- C6: on an ordered sequence the Key-Transformation-Flattener returns a
sequence of the same length whose structural elements are recursively
transformed and whose scalar elements pass through unchanged; in particular
transform([{a:1}, 2]) == [{"A": 1}, 2]. -/
theorem flatten_array_passthrough :
    (∀ xs : List Node,
        makeFlatStartCaseObject (.arr xs) =
          .arr (xs.map (fun e => if isStructural e then makeFlatStartCaseObject e else e))) ∧
    (∀ xs : List Node, ∃ ys : List Node,
        makeFlatStartCaseObject (.arr xs) = .arr ys ∧ ys.length = xs.length) ∧
    makeFlatStartCaseObject (.arr [.obj [("a", .num 1)], .num 2]) =
      .arr [.obj [("A", .num 1)], .num 2] := by
  refine ⟨?_, ?_, rfl⟩
  · intro xs
    simp [makeFlatStartCaseObject, makeFlatList_eq]
  · intro xs
    exact ⟨makeFlatList xs, rfl, by simp [makeFlatList_eq]⟩

/-- C7: the Key-Transformation-Flattener returns an absent input unchanged and
wraps every non-structural scalar x as the single-entry mapping
{ "Value": x }. -/
theorem flatten_absent_and_scalar :
    makeFlatStartCaseObject .undef = .undef ∧
    ∀ v : Node, isScalar v = true → makeFlatStartCaseObject v = .obj [("Value", v)] := by
  refine ⟨rfl, ?_⟩
  intro v hv
  cases v <;> first | exact Bool.noConfusion hv | rfl

/-- Witness for C7 at the spec's concrete input 5. -/
theorem flatten_absent_and_scalar_witness :
    makeFlatStartCaseObject (.num 5) = .obj [("Value", .num 5)] :=
  flatten_absent_and_scalar.2 (.num 5) rfl

/-! Path Anonymizer lemmas: the deep value mapper rewrites exactly the values
reachable by accessor paths, keys and shape untouched. -/

theorem jsGet_deepMapValuesFields (f : Node → Node) (fs : List (String × Node)) (k : String) :
    jsGet (deepMapValuesFields f fs) k = (jsGet fs k).map (deepMapValuesNode f) := by
  induction fs with
  | nil => rfl
  | cons q fs ih =>
    obtain ⟨k0, v0⟩ := q
    by_cases h : k0 == k
    · simp [deepMapValuesFields, jsGet_cons, h]
    · simp only [deepMapValuesFields]
      rw [jsGet_cons, jsGet_cons]
      simp [h, ih]

theorem get?_deepMapValuesList (f : Node → Node) (xs : List Node) (i : Nat) :
    (deepMapValuesList f xs).get? i = (xs.get? i).map (deepMapValuesNode f) := by
  induction xs generalizing i with
  | nil => cases i <;> rfl
  | cons x xs ih =>
    cases i with
    | zero => rfl
    | succ n => exact ih n

theorem getAt_deepMapValues (p : Platform) (path : List Step) (x : Node) :
    getAt (deepMapValuesNode (hideLeafValue p) x) path =
      (getAt x path).map (deepMapValuesNode (hideLeafValue p)) := by
  induction path generalizing x with
  | nil => simp [getAt]
  | cons st path ih =>
    cases st with
    | key k =>
      cases x with
      | obj fs =>
        simp only [deepMapValuesNode, getAt, jsGet_deepMapValuesFields]
        cases h : jsGet fs k with
        | none => rfl
        | some v => simp [ih]
      | arr xs => rfl
      | undef => rfl
      | null => rfl
      | bool b => rfl
      | num n => rfl
      | str s => simp [deepMapValuesNode, hideLeafValue, getAt]
    | idx i =>
      cases x with
      | arr xs =>
        simp only [deepMapValuesNode, getAt, get?_deepMapValuesList]
        cases h : xs.get? i with
        | none => rfl
        | some v => simp [ih]
      | obj fs => rfl
      | undef => rfl
      | null => rfl
      | bool b => rfl
      | num n => rfl
      | str s => simp [deepMapValuesNode, hideLeafValue, getAt]

theorem nodeKind_hideLeaf (p : Platform) (v : Node) :
    nodeKind (deepMapValuesNode (hideLeafValue p) v) = nodeKind v := by
  cases v <;> rfl

/-- C2: at every position of the input holding a string s, the Path Anonymizer
yields the spec's rewrite of s: device-prefixed strings ("/dev/" or "\\.\")
are kept, other absolute paths are replaced by their basename, and every other
string is kept. -/
theorem hide_string_rule (p : Platform) (x : Node) (path : List Step) (s : String)
    (h : getAt x path = some (.str s)) :
    getAt (hideAbsolutePathsInObject p x) path =
      some (.str (if strStartsWith s "/dev/" || strStartsWith s "\\\\.\\" then s
        else if isAbsolute p s then basename p s
        else s)) := by
  rw [hideAbsolutePathsInObject, getAt_deepMapValues, h]
  rfl

/-- Witness for C2: the source's doc-comment example /home/john/rpi.img is
anonymized to rpi.img. -/
theorem hide_string_rule_witness :
    getAt (hideAbsolutePathsInObject .posix (.obj [("path1", .str "/home/john/rpi.img")]))
        [.key "path1"] = some (.str "rpi.img") :=
  hide_string_rule .posix (.obj [("path1", .str "/home/john/rpi.img")]) [.key "path1"]
    "/home/john/rpi.img" rfl

/-- C8: the Path Anonymizer preserves the shape tag at every accessor path (so
shape and key sets are unchanged), and every non-string leaf is returned
unchanged. -/
theorem hide_shape_preserved :
    (∀ (p : Platform) (x : Node) (path : List Step),
        (getAt (hideAbsolutePathsInObject p x) path).map nodeKind =
          (getAt x path).map nodeKind) ∧
    (∀ (p : Platform) (x : Node) (path : List Step) (v : Node),
        getAt x path = some v → isStructural v = false → isStringNode v = false →
        getAt (hideAbsolutePathsInObject p x) path = some v) := by
  constructor
  · intro p x path
    rw [hideAbsolutePathsInObject, getAt_deepMapValues]
    cases h : getAt x path with
    | none => rfl
    | some v => simp [nodeKind_hideLeaf]
  · intro p x path v hv hstr hstrn
    rw [hideAbsolutePathsInObject, getAt_deepMapValues, hv]
    have hfix : deepMapValuesNode (hideLeafValue p) v = v := by
      cases v <;> simp_all [isStructural, isStringNode, deepMapValuesNode, hideLeafValue]
    simp [hfix]

/-- Witness for C8: a null leaf is passed through unchanged. -/
theorem hide_shape_preserved_witness :
    getAt (hideAbsolutePathsInObject .posix (.obj [("simpleProperty", .null)]))
        [.key "simpleProperty"] = some .null :=
  hide_shape_preserved.2 .posix (.obj [("simpleProperty", .null)]) [.key "simpleProperty"]
    .null rfl rfl rfl

/-! Idempotence of the Path Anonymizer: a basename contains no separator, hence
is never absolute, hence is a fixed point of the string rewrite. -/

theorem not_sep_of_mem_lastSegment (sep : Char → Bool) (cs : List Char) (c : Char)
    (h : c ∈ lastSegment sep cs) : sep c = false := by
  rw [lastSegment, List.mem_reverse] at h
  simpa using List.mem_takeWhile_imp h

theorem isAbsolute_basename_false (p : Platform) (s : String) :
    isAbsolute p (basename p s) = false := by
  cases p with
  | posix =>
    have hsep : ∀ c ∈ (basename .posix s).toList, (c == '/') = false := by
      intro c hc
      exact not_sep_of_mem_lastSegment (fun c => c == '/') s.toList c hc
    simp only [isAbsolute]
    cases hcs : (basename Platform.posix s).toList with
    | nil => rfl
    | cons c rest =>
      have := hsep c (by rw [hcs]; exact List.mem_cons_self c rest)
      simp [this]
  | win32 =>
    have hsep : ∀ c ∈ (basename .win32 s).toList, isWinSep c = false := by
      intro c hc
      exact not_sep_of_mem_lastSegment isWinSep (stripDrive s.toList) c hc
    simp only [isAbsolute]
    cases hcs : (basename Platform.win32 s).toList with
    | nil => rfl
    | cons c rest =>
      have h0 := hsep c (by rw [hcs]; exact List.mem_cons_self c rest)
      cases rest with
      | nil => simp [h0]
      | cons c1 rest1 =>
        cases rest1 with
        | nil => simp [h0]
        | cons c2 rest2 =>
          have h2 := hsep c2 (by
            rw [hcs]
            exact List.mem_cons_of_mem _ (List.mem_cons_of_mem _ (List.mem_cons_self c2 rest2)))
          simp [h0, h2]

theorem hideStringValue_basename (p : Platform) (s : String) :
    hideStringValue p (basename p s) = basename p s := by
  simp only [hideStringValue, isAbsolute_basename_false]
  split <;> simp

theorem hideStringValue_idem (p : Platform) (s : String) :
    hideStringValue p (hideStringValue p s) = hideStringValue p s := by
  by_cases h1 : (strStartsWith s "/dev/" || strStartsWith s "\\\\.\\") = true
  · have ht : hideStringValue p s = s := by simp [hideStringValue, h1]
    rw [ht, ht]
  · have h1f : (strStartsWith s "/dev/" || strStartsWith s "\\\\.\\") = false := by
      simpa using h1
    by_cases h2 : isAbsolute p s = true
    · have ht : hideStringValue p s = basename p s := by simp [hideStringValue, h1f, h2]
      rw [ht, hideStringValue_basename]
    · have h2f : isAbsolute p s = false := by simpa using h2
      have ht : hideStringValue p s = s := by simp [hideStringValue, h1f, h2f]
      rw [ht, ht]

mutual

theorem hideNode_idem (p : Platform) (x : Node) :
    deepMapValuesNode (hideLeafValue p) (deepMapValuesNode (hideLeafValue p) x) =
      deepMapValuesNode (hideLeafValue p) x := by
  cases x with
  | arr xs => simp [deepMapValuesNode, hideList_idem p xs]
  | obj fs => simp [deepMapValuesNode, hideFields_idem p fs]
  | str s => simp [deepMapValuesNode, hideLeafValue, hideStringValue_idem]
  | undef => rfl
  | null => rfl
  | bool b => rfl
  | num n => rfl

theorem hideList_idem (p : Platform) (xs : List Node) :
    deepMapValuesList (hideLeafValue p) (deepMapValuesList (hideLeafValue p) xs) =
      deepMapValuesList (hideLeafValue p) xs := by
  cases xs with
  | nil => rfl
  | cons x xs => simp [deepMapValuesList, hideNode_idem p x, hideList_idem p xs]

theorem hideFields_idem (p : Platform) (fs : List (String × Node)) :
    deepMapValuesFields (hideLeafValue p) (deepMapValuesFields (hideLeafValue p) fs) =
      deepMapValuesFields (hideLeafValue p) fs := by
  cases fs with
  | nil => rfl
  | cons q fs => simp [deepMapValuesFields, hideNode_idem p q.2, hideFields_idem p fs]

end

/-- C9: the Path Anonymizer is idempotent on every input and platform. -/
theorem hide_idempotent (p : Platform) (x : Node) :
    hideAbsolutePathsInObject p (hideAbsolutePathsInObject p x) =
      hideAbsolutePathsInObject p x :=
  hideNode_idem p x

/-! Correctness of the flattening pass: when the keys the loop writes are
pairwise distinct, the loop appends exactly the `emits` entries, and every
leaf reachable through nonempty mappings contributes its entry. -/

/-- Values at which flattening stops: everything except a nonempty mapping. -/
def isFlatLeaf : Node → Bool
  | .obj (_ :: _) => false
  | _ => true

theorem emits_append (l1 l2 : List (String × Node)) (pfx : Option String) :
    emits (l1 ++ l2) pfx = emits l1 pfx ++ emits l2 pfx := by
  induction l1 with
  | nil => simp [emits]
  | cons q l1 ih =>
    obtain ⟨k, v⟩ := q
    simp [emits, ih]

theorem emitsVal_leaf (v : Node) (nk : String) (h : isFlatLeaf v = true) :
    emitsVal v nk = [(nk, v)] := by
  cases v with
  | obj gs =>
    cases gs with
    | nil => rfl
    | cons g gs => exact Bool.noConfusion h
  | undef => rfl
  | null => rfl
  | bool b => rfl
  | num n => rfl
  | str s => rfl
  | arr xs => rfl

theorem flattenVal_leaf (v : Node) (nk : String) (out : List (String × Node))
    (h : isFlatLeaf v = true) : flattenVal v nk out = jsInsert out nk v := by
  cases v with
  | obj gs =>
    cases gs with
    | nil => rfl
    | cons g gs => exact Bool.noConfusion h
  | undef => rfl
  | null => rfl
  | bool b => rfl
  | num n => rfl
  | str s => rfl
  | arr xs => rfl

theorem isFlatLeaf_or_obj (v : Node) :
    isFlatLeaf v = true ∨ ∃ g gs, v = .obj (g :: gs) := by
  cases v with
  | obj gs =>
    cases gs with
    | nil => exact Or.inl rfl
    | cons g gs => exact Or.inr ⟨g, gs, rfl⟩
  | undef => exact Or.inl rfl
  | null => exact Or.inl rfl
  | bool b => exact Or.inl rfl
  | num n => exact Or.inl rfl
  | str s => exact Or.inl rfl
  | arr xs => exact Or.inl rfl

theorem flattenVal_eq_emits_leaf (v : Node) (nk : String) (out : List (String × Node))
    (h : (out.map Prod.fst ++ (emitsVal v nk).map Prod.fst).Nodup)
    (hleaf : isFlatLeaf v = true) :
    flattenVal v nk out = out ++ emitsVal v nk := by
  have hfresh : nk ∉ out.map Prod.fst := by
    have hd := (List.nodup_append.mp h).2.2
    intro hmem
    exact hd hmem (by simp [emitsVal_leaf v nk hleaf])
  rw [flattenVal_leaf v nk out hleaf, emitsVal_leaf v nk hleaf,
    jsInsert_fresh _ _ _ hfresh]

mutual

theorem flattenStep_eq_emits : (fs : List (String × Node)) → (pfx : Option String) →
    (out : List (String × Node)) →
    (out.map Prod.fst ++ (emits fs pfx).map Prod.fst).Nodup →
    flattenStep fs pfx out = out ++ emits fs pfx
  | [], pfx, out, _ => by simp [flattenStep, emits]
  | (k, v) :: fs, pfx, out, h => by
    have hsplit : emits ((k, v) :: fs) pfx =
        emitsVal v (joinKey pfx k) ++ emits fs pfx := by
      simp [emits]
    rw [hsplit] at h
    rw [List.map_append] at h
    have hval : flattenVal v (joinKey pfx k) out = out ++ emitsVal v (joinKey pfx k) := by
      refine flattenVal_eq_emits v (joinKey pfx k) out ?_
      refine h.sublist ?_
      rw [← List.append_assoc]
      exact List.sublist_append_left _ _
    have hrest : flattenStep fs pfx (out ++ emitsVal v (joinKey pfx k)) =
        (out ++ emitsVal v (joinKey pfx k)) ++ emits fs pfx := by
      refine flattenStep_eq_emits fs pfx _ ?_
      rw [List.map_append]
      rwa [← List.append_assoc] at h
    calc flattenStep ((k, v) :: fs) pfx out
        = flattenStep fs pfx (flattenVal v (joinKey pfx k) out) := by
          simp [flattenStep]
      _ = (out ++ emitsVal v (joinKey pfx k)) ++ emits fs pfx := by rw [hval, hrest]
      _ = out ++ emits ((k, v) :: fs) pfx := by rw [hsplit, List.append_assoc]

theorem flattenVal_eq_emits : (v : Node) → (nk : String) → (out : List (String × Node)) →
    (out.map Prod.fst ++ (emitsVal v nk).map Prod.fst).Nodup →
    flattenVal v nk out = out ++ emitsVal v nk
  | .obj (g :: gs), nk, out, h => by
    have hemt : emitsVal (Node.obj (g :: gs)) nk = emits (g :: gs) (some nk) := by
      simp [emitsVal]
    rw [hemt] at h
    calc flattenVal (Node.obj (g :: gs)) nk out
        = flattenStep (g :: gs) (some nk) out := by simp [flattenVal]
      _ = out ++ emits (g :: gs) (some nk) := flattenStep_eq_emits (g :: gs) (some nk) out h
      _ = out ++ emitsVal (Node.obj (g :: gs)) nk := by rw [hemt]
  | .obj [], nk, out, h => flattenVal_eq_emits_leaf (.obj []) nk out h rfl
  | .undef, nk, out, h => flattenVal_eq_emits_leaf .undef nk out h rfl
  | .null, nk, out, h => flattenVal_eq_emits_leaf .null nk out h rfl
  | .bool b, nk, out, h => flattenVal_eq_emits_leaf (.bool b) nk out h rfl
  | .num n, nk, out, h => flattenVal_eq_emits_leaf (.num n) nk out h rfl
  | .str s, nk, out, h => flattenVal_eq_emits_leaf (.str s) nk out h rfl
  | .arr xs, nk, out, h => flattenVal_eq_emits_leaf (.arr xs) nk out h rfl

end

theorem jsGet_split (fs : List (String × Node)) (k : String) (w : Node)
    (h : jsGet fs k = some w) : ∃ l1 l2, fs = l1 ++ (k, w) :: l2 := by
  induction fs with
  | nil => simp [jsGet, List.find?] at h
  | cons q fs ih =>
    obtain ⟨k0, v0⟩ := q
    rw [jsGet_cons] at h
    by_cases hk : k0 == k
    · refine ⟨[], fs, ?_⟩
      simp only [hk, if_true, Option.some.injEq] at h
      rw [eq_of_beq hk, h]
      simp
    · simp only [hk, Bool.false_eq_true, if_false] at h
      obtain ⟨l1, l2, rfl⟩ := ih h
      exact ⟨(k0, v0) :: l1, l2, rfl⟩

theorem joinKey_renderPath_cons (pfx : Option String) (k : String) (ks : List String)
    (h : ks ≠ []) :
    joinKey pfx (renderPath (k :: ks)) = joinKey (some (joinKey pfx k)) (renderPath ks) := by
  cases ks with
  | nil => exact absurd rfl h
  | cons k1 ks1 =>
    cases pfx with
    | none => simp [joinKey, renderPath]
    | some p => simp [joinKey, renderPath, String.append_assoc]

theorem getAt_key_cons (fs : List (String × Node)) (k : String) (p : List Step) :
    getAt (.obj fs) (.key k :: p) =
      (match jsGet fs k with
        | some v => getAt v p
        | none => none) := by
  simp [getAt]

theorem mem_emits_of_getAt : (ks : List String) → (fs : List (String × Node)) →
    (pfx : Option String) → (v : Node) →
    getAt (.obj fs) (ks.map Step.key) = some v → isFlatLeaf v = true → ks ≠ [] →
    (joinKey pfx (renderPath ks), v) ∈ emits fs pfx
  | [], _, _, _, _, _, hne => absurd rfl hne
  | [k], fs, pfx, v, hget, hleaf, _ => by
    have hj : jsGet fs k = some v := by
      rw [List.map, List.map, getAt_key_cons] at hget
      cases h : jsGet fs k with
      | none => rw [h] at hget; exact Option.noConfusion hget
      | some w =>
        rw [h] at hget
        simp only [getAt] at hget
        rw [hget]
    obtain ⟨l1, l2, rfl⟩ := jsGet_split fs k v hj
    rw [emits_append]
    refine List.mem_append_right _ ?_
    have : emits ((k, v) :: l2) pfx = emitsVal v (joinKey pfx k) ++ emits l2 pfx := by
      simp [emits]
    rw [this, emitsVal_leaf v (joinKey pfx k) hleaf]
    simp [renderPath]
  | k :: k1 :: ks2, fs, pfx, v, hget, hleaf, _ => by
    rw [List.map, getAt_key_cons] at hget
    have hj : ∃ w, jsGet fs k = some w ∧ getAt w ((k1 :: ks2).map Step.key) = some v := by
      cases h : jsGet fs k with
      | none => rw [h] at hget; exact Option.noConfusion hget
      | some w => exact ⟨w, rfl, by rw [h] at hget; exact hget⟩
    obtain ⟨w, hjw, hgw⟩ := hj
    have hobj : ∃ hs, w = Node.obj hs := by
      cases w with
      | obj hs => exact ⟨hs, rfl⟩
      | undef => simp [getAt] at hgw
      | null => simp [getAt] at hgw
      | bool b => simp [getAt] at hgw
      | num n => simp [getAt] at hgw
      | str s => simp [getAt] at hgw
      | arr xs => simp [getAt] at hgw
    obtain ⟨hs, rfl⟩ := hobj
    have hne2 : hs ≠ [] := by
      intro hnil
      subst hnil
      rw [List.map, getAt_key_cons] at hgw
      simp [jsGet, List.find?] at hgw
    obtain ⟨g, gs, rfl⟩ : ∃ g gs, hs = g :: gs := by
      cases hs with
      | nil => exact absurd rfl hne2
      | cons g gs => exact ⟨g, gs, rfl⟩
    have hmem := mem_emits_of_getAt (k1 :: ks2) (g :: gs) (some (joinKey pfx k)) v hgw hleaf
      (by simp)
    obtain ⟨l1, l2, rfl⟩ := jsGet_split fs k (Node.obj (g :: gs)) hjw
    rw [emits_append]
    refine List.mem_append_right _ ?_
    have hsplit : emits ((k, Node.obj (g :: gs)) :: l2) pfx =
        emitsVal (Node.obj (g :: gs)) (joinKey pfx k) ++ emits l2 pfx := by
      simp [emits]
    rw [hsplit]
    refine List.mem_append_left _ ?_
    have hemt : emitsVal (Node.obj (g :: gs)) (joinKey pfx k) =
        emits (g :: gs) (some (joinKey pfx k)) := by
      simp [emitsVal]
    rw [hemt, joinKey_renderPath_cons pfx k (k1 :: ks2) (by simp)]
    exact hmem


/-! Correspondence between a mapping and its key-renamed copy, under
collision-freedom of the renaming. -/

theorem deepMapKeysFields_keys (f : String → String) (fs : List (String × Node)) :
    (deepMapKeysFields f fs).map Prod.fst = fs.map (fun q => f q.1) := by
  induction fs with
  | nil => rfl
  | cons q fs ih =>
    obtain ⟨k, v⟩ := q
    simp [deepMapKeysFields, ih]

theorem jsObjOf_go (l acc : List (String × Node))
    (h : (acc.map Prod.fst ++ l.map Prod.fst).Nodup) :
    l.foldl (fun acc q => jsInsert acc q.1 q.2) acc = acc ++ l := by
  induction l generalizing acc with
  | nil => simp
  | cons q l ih =>
    obtain ⟨k, v⟩ := q
    have hfresh : k ∉ acc.map Prod.fst := by
      have hd := (List.nodup_append.mp h).2.2
      intro hmem
      exact hd hmem (by simp)
    rw [List.foldl_cons]
    have : jsInsert acc k v = acc ++ [(k, v)] := jsInsert_fresh acc k v hfresh
    simp only [this]
    rw [ih (acc ++ [(k, v)]) ?_]
    · simp
    · simp only [List.map_append, List.map_cons, List.map_nil] at h ⊢
      rw [List.append_assoc]
      simpa using h

theorem jsObjOf_nodup (l : List (String × Node)) (h : (l.map Prod.fst).Nodup) :
    jsObjOf l = l := by
  have := jsObjOf_go l [] (by simpa using h)
  simpa [jsObjOf] using this

theorem jsGet_mapped (f : String → String) (fs : List (String × Node)) (k : String) (w : Node)
    (hnd : (fs.map (fun q => f q.1)).Nodup) (h : jsGet fs k = some w) :
    jsGet (deepMapKeysFields f fs) (f k) = some (deepMapKeysNode f w) := by
  induction fs with
  | nil => simp [jsGet, List.find?] at h
  | cons q fs ih =>
    obtain ⟨k0, v0⟩ := q
    rw [jsGet_cons] at h
    simp only [deepMapKeysFields]
    rw [jsGet_cons]
    by_cases hk : k0 == k
    · have hv : v0 = w := by simpa [hk] using h
      subst hv
      have : (f k0 == f k) = true := by rw [eq_of_beq hk]; exact beq_self_eq_true (f k)
      simp [this]
    · have h2 : jsGet fs k = some w := by simpa [hk] using h
      simp only [List.map_cons, List.nodup_cons] at hnd
      have hkmem : k ∈ fs.map Prod.fst := jsGet_some_key_mem fs k w h2
      have hfk : f k ∈ fs.map (fun q => f q.1) := by
        have : fs.map (fun q => f q.1) = (fs.map Prod.fst).map f := by
          rw [List.map_map]
          rfl
        rw [this]
        exact List.mem_map.mpr ⟨k, hkmem, rfl⟩
      have hne : (f k0 == f k) = false := by
        rcases Bool.eq_false_or_eq_true (f k0 == f k) with hb | hb
        · exact absurd (eq_of_beq hb ▸ hfk) hnd.1
        · exact hb
      rw [hne]
      simp only [Bool.false_eq_true, if_false]
      exact ih hnd.2 h2

theorem renameOK_value (f : String → String) (fs : List (String × Node)) (k : String) (w : Node)
    (hok : renameOKFields f fs = true) (hmem : (k, w) ∈ fs) :
    renameOKNode f w = true := by
  induction fs with
  | nil => simp at hmem
  | cons q fs ih =>
    obtain ⟨k0, v0⟩ := q
    simp only [renameOKFields, Bool.and_eq_true] at hok
    rcases List.mem_cons.mp hmem with hq | hq
    · cases hq
      exact hok.1
    · exact ih hok.2 hq

theorem getAt_renamed : (ks : List String) → (fs : List (String × Node)) → (v : Node) →
    renameOKNode renameKey (.obj fs) = true →
    getAt (.obj fs) (ks.map Step.key) = some v →
    getAt (.obj (renamedFieldsOf fs)) ((ks.map renameKey).map Step.key) =
      some (deepMapKeysNode renameKey v)
  | [], fs, v, _, hget => by
    simp only [List.map_nil, getAt] at hget ⊢
    have hv : v = .obj fs := by
      have := hget
      simp only [Option.some.injEq] at this
      exact this.symm
    subst hv
    rfl
  | k :: ks1, fs, v, hok, hget => by
    simp only [renameOKNode, Bool.and_eq_true] at hok
    have hcollapse : renamedFieldsOf fs = deepMapKeysFields renameKey fs := by
      refine jsObjOf_nodup _ ?_
      rw [deepMapKeysFields_keys]
      exact (distinctKeys_iff _).mp hok.1
    rw [List.map, getAt_key_cons] at hget
    have hj : ∃ w, jsGet fs k = some w ∧ getAt w (ks1.map Step.key) = some v := by
      cases h : jsGet fs k with
      | none => rw [h] at hget; exact Option.noConfusion hget
      | some w => exact ⟨w, rfl, by rw [h] at hget; exact hget⟩
    obtain ⟨w, hjw, hgw⟩ := hj
    have hdist : (fs.map (fun q => renameKey q.1)).Nodup := (distinctKeys_iff _).mp hok.1
    have hjm := jsGet_mapped renameKey fs k w hdist hjw
    rw [hcollapse, List.map, List.map, getAt_key_cons, hjm]
    cases ks1 with
    | nil =>
      have hv : v = w := by
        simp only [List.map_nil, getAt, Option.some.injEq] at hgw
        exact hgw.symm
      subst hv
      simp [getAt]
    | cons a b =>
      have hobj : ∃ hs, w = Node.obj hs := by
        cases w with
        | obj hs => exact ⟨hs, rfl⟩
        | undef => simp [getAt] at hgw
        | null => simp [getAt] at hgw
        | bool bb => simp [getAt] at hgw
        | num n => simp [getAt] at hgw
        | str s => simp [getAt] at hgw
        | arr xs => simp [getAt] at hgw
      obtain ⟨hs, rfl⟩ := hobj
      have hok2 : renameOKNode renameKey (.obj hs) = true :=
        renameOK_value renameKey fs k (.obj hs) hok.2 (jsGet_mem fs k _ hjw)
      have := getAt_renamed (a :: b) hs v hok2 hgw
      exact this


theorem isFlatLeaf_renamed (v : Node) (h : isFlatLeaf v = true) :
    isFlatLeaf (deepMapKeysNode renameKey v) = true := by
  cases v with
  | obj gs =>
    cases gs with
    | nil => rfl
    | cons g gs => exact Bool.noConfusion h
  | undef => rfl
  | null => rfl
  | bool b => rfl
  | num n => rfl
  | str s => rfl
  | arr xs => rfl

theorem flat_correct (fs : List (String × Node)) (ks : List String) (v : Node)
    (h1 : renameOKNode renameKey (.obj fs) = true)
    (h2 : distinctKeys ((emits (renamedFieldsOf fs) none).map Prod.fst) = true)
    (hget : getAt (.obj fs) (ks.map Step.key) = some v)
    (hleaf : isFlatLeaf v = true) (hne : ks ≠ []) :
    jsGet (flattenStep (renamedFieldsOf fs) none []) (renderPath (ks.map renameKey)) =
      some (deepMapKeysNode renameKey v) ∧
    keyCount (flattenStep (renamedFieldsOf fs) none []) (renderPath (ks.map renameKey)) = 1 := by
  have hren := getAt_renamed ks fs v h1 hget
  have hleaf2 := isFlatLeaf_renamed v hleaf
  have hnd : ((emits (renamedFieldsOf fs) none).map Prod.fst).Nodup := (distinctKeys_iff _).mp h2
  have hflat : flattenStep (renamedFieldsOf fs) none [] = emits (renamedFieldsOf fs) none := by
    have := flattenStep_eq_emits (renamedFieldsOf fs) none [] (by simpa using hnd)
    simpa using this
  have hksne : ks.map renameKey ≠ [] := by
    cases ks with
    | nil => exact absurd rfl hne
    | cons a b => simp
  have hmem := mem_emits_of_getAt (ks.map renameKey) (renamedFieldsOf fs) none
    (deepMapKeysNode renameKey v) hren hleaf2 hksne
  rw [hflat]
  have hjoin : joinKey none (renderPath (ks.map renameKey)) = renderPath (ks.map renameKey) := rfl
  rw [hjoin] at hmem
  exact jsGet_of_nodup_mem _ _ _ hnd hmem

/-- C1 (amended): for a mapping input whose renaming is collision-free at every
level and whose flattened path-strings are pairwise distinct, every scalar leaf
reachable at a key-path k1..kn appears in the flattened output as exactly one
entry, keyed by the space-joined renamed path, mapped to that same leaf
value. -/
theorem flatten_leaf_lookup (fs : List (String × Node)) (ks : List String) (v : Node)
    (h1 : renameOKNode renameKey (.obj fs) = true)
    (h2 : distinctKeys ((emits (renamedFieldsOf fs) none).map Prod.fst) = true)
    (hget : getAt (.obj fs) (ks.map Step.key) = some v)
    (hscal : isScalar v = true) (hne : ks ≠ []) :
    makeFlatStartCaseObject (.obj fs) = .obj (flattenStep (renamedFieldsOf fs) none []) ∧
    jsGet (flattenStep (renamedFieldsOf fs) none []) (renderPath (ks.map renameKey)) = some v ∧
    keyCount (flattenStep (renamedFieldsOf fs) none []) (renderPath (ks.map renameKey)) = 1 := by
  have hleaf : isFlatLeaf v = true := by
    cases v <;> first | rfl | exact Bool.noConfusion hscal
  have hdm : deepMapKeysNode renameKey v = v := by
    cases v <;> first | rfl | exact Bool.noConfusion hscal
  have h := flat_correct fs ks v h1 h2 hget hleaf hne
  rw [hdm] at h
  exact ⟨rfl, h.1, h.2⟩

/-- Witness for C1 (amended): the leaf 7 at key-path image.size is found at
path-string "Image Size". -/
theorem flatten_leaf_lookup_witness :
    jsGet (flattenStep (renamedFieldsOf [("image", Node.obj [("size", Node.num 7)])]) none [])
        (renderPath (["image", "size"].map renameKey)) = some (Node.num 7) :=
  (flatten_leaf_lookup [("image", Node.obj [("size", Node.num 7)])] ["image", "size"]
    (Node.num 7) (by decide) (by decide) rfl rfl (by decide)).2.1

/-- Counterexample to C1 as stated: keys "aB" and "a b" both render to
path-string "A B", the last written value wins, and the leaf 1 reachable at
key-path ["aB"] is not the value found at its rendered path-string. -/
theorem flatten_leaf_lookup_cex :
    makeFlatStartCaseObject (.obj [("aB", .num 1), ("a b", .num 2)]) =
      .obj [("A B", .num 2)] ∧
    getAt (.obj [("aB", .num 1), ("a b", .num 2)]) (["aB"].map Step.key) = some (.num 1) ∧
    renderPath (["aB"].map renameKey) = "A B" ∧
    jsGet [("A B", .num 2)] "A B" = some (.num 2) ∧
    Node.num 2 ≠ Node.num 1 :=
  ⟨rfl, rfl, rfl, rfl, by simp⟩

/-- C3 (amended): flattening neither fails nor drops other branches, but an
empty mapping branch or an absent branch is not omitted: under the
collision-freedom provisos it appears in the flattened output as exactly one
entry mapping its rendered path-string to that same value (the empty mapping,
respectively the absent value). -/
theorem flatten_empty_branch (fs : List (String × Node)) (ks : List String) (v : Node)
    (h1 : renameOKNode renameKey (.obj fs) = true)
    (h2 : distinctKeys ((emits (renamedFieldsOf fs) none).map Prod.fst) = true)
    (hget : getAt (.obj fs) (ks.map Step.key) = some v)
    (hv : v = .obj [] ∨ v = .undef)
    (hne : ks ≠ []) :
    makeFlatStartCaseObject (.obj fs) = .obj (flattenStep (renamedFieldsOf fs) none []) ∧
    jsGet (flattenStep (renamedFieldsOf fs) none []) (renderPath (ks.map renameKey)) =
      some v ∧
    keyCount (flattenStep (renamedFieldsOf fs) none []) (renderPath (ks.map renameKey)) = 1 := by
  have hleaf : isFlatLeaf v = true := by
    rcases hv with rfl | rfl <;> rfl
  have hdm : deepMapKeysNode renameKey v = v := by
    rcases hv with rfl | rfl <;> rfl
  have h := flat_correct fs ks v h1 h2 hget hleaf hne
  rw [hdm] at h
  exact ⟨rfl, h.1, h.2⟩

/-- Witness for C3 (amended): the empty branch a of { a: {}, b: 1 } appears as
the entry "A" mapped to the empty mapping, and the absent branch a of
{ a: absent, b: 1 } appears as the entry "A" mapped to the absent value. -/
theorem flatten_empty_branch_witness :
    jsGet (flattenStep (renamedFieldsOf [("a", Node.obj []), ("b", Node.num 1)]) none [])
        (renderPath (["a"].map renameKey)) = some (Node.obj []) ∧
    jsGet (flattenStep (renamedFieldsOf [("a", Node.undef), ("b", Node.num 1)]) none [])
        (renderPath (["a"].map renameKey)) = some Node.undef :=
  ⟨(flatten_empty_branch [("a", Node.obj []), ("b", Node.num 1)] ["a"] (Node.obj [])
      (by decide) (by decide) rfl (Or.inl rfl) (by decide)).2.1,
    (flatten_empty_branch [("a", Node.undef), ("b", Node.num 1)] ["a"] Node.undef
      (by decide) (by decide) rfl (Or.inr rfl) (by decide)).2.1⟩

/-- Counterexample to C3 as stated: neither the empty branch of { a: {}, b: 1 }
nor the absent branch of { c: absent, d: 1 } is omitted from the flattened
output; an entry for each appears, mapped to the empty mapping, respectively
the absent value. -/
theorem flatten_empty_branch_cex :
    makeFlatStartCaseObject (.obj [("a", .obj []), ("b", .num 1)]) =
      .obj [("A", .obj []), ("B", .num 1)] ∧
    jsGet [("A", .obj []), ("B", .num 1)] "A" = some (.obj []) ∧
    makeFlatStartCaseObject (.obj [("c", .undef), ("d", .num 1)]) =
      .obj [("C", .undef), ("D", .num 1)] ∧
    jsGet [("C", .undef), ("D", .num 1)] "C" = some .undef :=
  ⟨rfl, rfl, rfl, rfl⟩

/-- C10 (amended): under the collision-freedom provisos, a sequence value of a
mapping key appears whole in the flattened output as exactly one entry at the
renamed key (path-strings do not extend into the sequence), with the keys of
mappings inside the sequence renamed by the key-renaming pass. -/
theorem flatten_array_kept_whole (fs : List (String × Node)) (k : String) (ys : List Node)
    (h1 : renameOKNode renameKey (.obj fs) = true)
    (h2 : distinctKeys ((emits (renamedFieldsOf fs) none).map Prod.fst) = true)
    (hget : jsGet fs k = some (.arr ys)) :
    makeFlatStartCaseObject (.obj fs) = .obj (flattenStep (renamedFieldsOf fs) none []) ∧
    jsGet (flattenStep (renamedFieldsOf fs) none []) (renameKey k) =
      some (.arr (deepMapKeysList renameKey ys)) ∧
    keyCount (flattenStep (renamedFieldsOf fs) none []) (renameKey k) = 1 := by
  have hget2 : getAt (.obj fs) ([k].map Step.key) = some (.arr ys) := by
    rw [List.map, List.map, getAt_key_cons, hget]
    simp [getAt]
  have h := flat_correct fs [k] (.arr ys) h1 h2 hget2 rfl (by simp)
  exact ⟨rfl, h.1, h.2⟩

/-- Witness for C10 (amended): { a: [{ b: 1 }] } flattens to an entry "A"
holding the whole sequence, with the inner key renamed to "B". -/
theorem flatten_array_kept_whole_witness :
    jsGet (flattenStep (renamedFieldsOf [("a", Node.arr [Node.obj [("b", Node.num 1)]])]) none [])
        (renameKey "a") = some (Node.arr [Node.obj [("B", Node.num 1)]]) :=
  (flatten_array_kept_whole [("a", Node.arr [Node.obj [("b", Node.num 1)]])] "a"
    [Node.obj [("b", Node.num 1)]] (by decide) (by decide) rfl).2.1

/-- Counterexample to C10 as stated: in { aB: [1], "a b": 2 } both keys render
to "A B"; the sequence is overwritten and the output does not contain the
sequence as the value of the renamed key's path-string. -/
theorem flatten_array_kept_whole_cex :
    makeFlatStartCaseObject (.obj [("aB", .arr [.num 1]), ("a b", .num 2)]) =
      .obj [("A B", .num 2)] ∧
    renameKey "aB" = "A B" ∧
    jsGet [("A B", .num 2)] "A B" = some (.num 2) ∧
    Node.num 2 ≠ Node.arr [.num 1] :=
  ⟨rfl, rfl, rfl, fun h => Node.noConfusion h⟩

/-- C5 (amended): a key made only of uppercase ASCII letters and underscores is
preserved verbatim through the whole transformation; every other key is
replaced by its start-case form, which can coincide with the original key; in
particular transform({ FOO_BAR: 1 }) == { FOO_BAR: 1 }. -/
theorem env_key_preserved :
    (∀ (k : String) (v : Node), isEnvKey k = true → isScalar v = true →
        makeFlatStartCaseObject (.obj [(k, v)]) = .obj [(k, v)]) ∧
    (∀ k : String, isEnvKey k = false → renameKey k = startCase k) ∧
    makeFlatStartCaseObject (.obj [("FOO_BAR", .num 1)]) = .obj [("FOO_BAR", .num 1)] := by
  refine ⟨?_, ?_, rfl⟩
  · intro k v hk hv
    have hrk : renameKey k = k := by simp [renameKey, hk]
    have hdm : deepMapKeysNode renameKey v = v := by
      cases v <;> first | rfl | exact Bool.noConfusion hv
    have hleaf : isFlatLeaf v = true := by
      cases v <;> first | rfl | exact Bool.noConfusion hv
    have hren : renamedFieldsOf [(k, v)] = [(k, v)] := by
      simp [renamedFieldsOf, deepMapKeysFields, jsObjOf, jsInsert, hrk, hdm]
    calc makeFlatStartCaseObject (.obj [(k, v)])
        = .obj (flattenStep (renamedFieldsOf [(k, v)]) none []) := by
          simp [makeFlatStartCaseObject]
      _ = .obj (flattenStep [(k, v)] none []) := by rw [hren]
      _ = .obj (jsInsert [] (joinKey none k) v) := by
          simp only [flattenStep]
          rw [flattenVal_leaf v (joinKey none k) [] hleaf]
      _ = .obj [(k, v)] := by simp [jsInsert, joinKey]
  · intro k hk
    simp [renameKey, hk]

/-- Witness for C5 (amended): the environment-style key "PATH" with a null
value passes through the whole transformation untouched. -/
theorem env_key_preserved_witness :
    makeFlatStartCaseObject (.obj [("PATH", Node.null)]) = .obj [("PATH", Node.null)] :=
  env_key_preserved.1 "PATH" Node.null rfl rfl

/-- Counterexample to C5 as stated: the key "Foo" does not match the pattern
one-or-more-of-uppercase-or-underscore, yet it is preserved verbatim because
start-casing is the identity on it; preservation verbatim is therefore not
equivalent to matching the pattern. -/
theorem env_key_preserved_cex :
    isEnvKey "Foo" = false ∧ renameKey "Foo" = "Foo" ∧
    makeFlatStartCaseObject (.obj [("Foo", .num 1)]) = .obj [("Foo", .num 1)] :=
  ⟨rfl, rfl, rfl⟩

end Etcher
